import Mathlib

/-!
# Verification of the evremap remapping engine

Shallow embedding of `src/remapper.rs` and `src/mapping.rs` of the
evremap input remapper (innovate-invent fork), together with proofs
settling the frozen claims about its specification.

Modelling conventions:
* Rust `HashSet`/`HashMap` values are modelled as Lean `List`s (an
  association list for the map).  Iteration order of a Rust hash
  container is arbitrary; the list order stands for one possible
  iteration order, and set-level facts are stated via membership.
* evdev enum values (`EV_KEY`, `EV_REL`, ...) carry their numeric codes
  as `Nat` payloads; the named constants below use the real kernel
  codes.  The enums are nominal in Rust, so only distinctness matters.
* Machine integers (`i32`, `i64`, `libc::time_t`) are modelled as `Int`
  with explicit reductions where overflow matters: the `as u64` cast in
  `timeval_diff` is `% 2 ^ 64`, and the axis value product wraps to the
  `i32` range through `i32wrap` as a release-build multiplication does.
* Rust `slice::sort_by` is a stable sort whose order relation is
  `cmp a b == Ordering::Less`; it is modelled as a stable insertion
  sort over that relation.
-/

set_option autoImplicit false

namespace Evremap

/-- evdev event families, after `evdev_rs::enums::EventType`
(the variants used by `to_event_type` in `remapper.rs`). -/
inductive EventType where
  | EV_SYN
  | EV_KEY
  | EV_REL
  | EV_ABS
  | EV_MSC
  | EV_SW
  | EV_LED
  | EV_SND
  | EV_REP
  | EV_FF
  | EV_PWR
  | EV_FF_STATUS
  | EV_MAX
  | EV_UNK
  deriving DecidableEq, Repr

/-- evdev event codes, after `evdev_rs::enums::EventCode`: a family tag
with the numeric code inside the family as payload. -/
inductive EventCode where
  | EV_SYN (c : Nat)
  | EV_KEY (k : Nat)
  | EV_REL (c : Nat)
  | EV_ABS (c : Nat)
  | EV_MSC (c : Nat)
  | EV_SW (c : Nat)
  | EV_LED (c : Nat)
  | EV_SND (c : Nat)
  | EV_REP (c : Nat)
  | EV_FF (c : Nat)
  | EV_PWR
  | EV_FF_STATUS (c : Nat)
  | EV_MAX
  | EV_UNK
  deriving DecidableEq, Repr

/-- `mapping.rs` re-exports `EventCode` as `KeyCode`. -/
abbrev KeyCode := EventCode

/-- `to_event_type` from `remapper.rs`. -/
def to_event_type : EventCode → EventType
  | .EV_SYN _ => .EV_SYN
  | .EV_KEY _ => .EV_KEY
  | .EV_REL _ => .EV_REL
  | .EV_ABS _ => .EV_ABS
  | .EV_MSC _ => .EV_MSC
  | .EV_SW _ => .EV_SW
  | .EV_LED _ => .EV_LED
  | .EV_SND _ => .EV_SND
  | .EV_REP _ => .EV_REP
  | .EV_FF _ => .EV_FF
  | .EV_PWR => .EV_PWR
  | .EV_FF_STATUS _ => .EV_FF_STATUS
  | .EV_MAX => .EV_MAX
  | .EV_UNK => .EV_UNK

/- Linux kernel key codes for the names appearing in `is_modifier` and
in the concrete scenarios below. -/

def KEY_RESERVED : Nat := 0
def KEY_ESC : Nat := 1
def KEY_TAB : Nat := 15
def KEY_LEFTCTRL : Nat := 29
def KEY_A : Nat := 30
def KEY_B : Nat := 48
def KEY_C : Nat := 46
def KEY_LEFTSHIFT : Nat := 42
def KEY_RIGHTSHIFT : Nat := 54
def KEY_LEFTALT : Nat := 56
def KEY_CAPSLOCK : Nat := 58
def KEY_RIGHTCTRL : Nat := 97
def KEY_RIGHTALT : Nat := 100
def KEY_VOLUMEDOWN : Nat := 114
def KEY_VOLUMEUP : Nat := 115
def KEY_LEFTMETA : Nat := 125
def KEY_RIGHTMETA : Nat := 126
def BTN_LEFT : Nat := 272
def KEY_FN : Nat := 464
def REL_WHEEL : Nat := 8
def REL_HWHEEL : Nat := 6

/-- `TimeVal` from `evdev_rs` (`tv_sec : time_t`, `tv_usec`). -/
structure TimeVal where
  tv_sec : Int
  tv_usec : Int
  deriving DecidableEq, Repr

/-- `InputEvent` from `evdev_rs`: timestamp, event code, value. -/
structure InputEvent where
  time : TimeVal
  event_code : EventCode
  value : Int
  deriving DecidableEq, Repr

/-- `KeyEventType` from `remapper.rs`. -/
inductive KeyEventType where
  | Release
  | Press
  | Repeat
  | Unknown (n : Int)
  deriving DecidableEq, Repr

/-- `KeyEventType::from_value`. -/
def KeyEventType.from_value (value : Int) : KeyEventType :=
  if value = 0 then .Release
  else if value = 1 then .Press
  else if value = 2 then .Repeat
  else .Unknown value

/-- `KeyEventType::value`. -/
def KeyEventType.value : KeyEventType → Int
  | .Release => 0
  | .Press => 1
  | .Repeat => 2
  | .Unknown n => n

/-- `KeyCodeWrapper` from `mapping.rs`: an event code plus the signed
scale / direction filter. -/
structure KeyCodeWrapper where
  code : EventCode
  scale : Int
  deriving DecidableEq, Repr

/-- `Mapping` from `mapping.rs`.  The Rust `HashSet<KeyCodeWrapper>`
fields of `Remap` are modelled as lists (one possible iteration order). -/
inductive Mapping where
  | DualRole (input : KeyCode) (hold : List KeyCode) (tap : List KeyCode)
  | Remap (input : List KeyCodeWrapper) (output : List KeyCodeWrapper)
  deriving DecidableEq, Repr

/- ### Hash-container helpers (list models of HashSet / HashMap) -/

/-- `HashSet::insert` on the list model (no-op when present). -/
def hsInsert {α : Type} [DecidableEq α] (x : α) (l : List α) : List α :=
  if x ∈ l then l else l ++ [x]

/-- `HashSet::remove` on the list model. -/
def hsRemove {α : Type} [DecidableEq α] (x : α) (l : List α) : List α :=
  l.filter (fun y => decide (y ≠ x))

/-- `HashMap::contains_key` on the association-list model. -/
def hmContains (st : List (KeyCode × TimeVal)) (k : KeyCode) : Bool :=
  st.any (fun p => decide (p.1 = k))

/-- Value lookup in the association-list model of the `HashMap`. -/
def hmGet (st : List (KeyCode × TimeVal)) (k : KeyCode) : Option TimeVal :=
  (st.find? (fun p => decide (p.1 = k))).map (·.2)

/-- `HashMap::remove` (dropping the entry) on the association-list model. -/
def hmRemoveKey (st : List (KeyCode × TimeVal)) (k : KeyCode) :
    List (KeyCode × TimeVal) :=
  st.filter (fun p => decide (p.1 ≠ k))

/-- `HashMap::insert`: overwrite in place if present, else append. -/
def hmInsert (st : List (KeyCode × TimeVal)) (k : KeyCode) (t : TimeVal) :
    List (KeyCode × TimeVal) :=
  if hmContains st k then st.map (fun p => if p.1 = k then (k, t) else p)
  else st ++ [(k, t)]

/- ### Modifiers and the sort comparators -/

/-- `is_modifier` from `remapper.rs`: a fixed match on nine `EV_KEY`
variants. -/
def is_modifier (k : Nat) : Bool :=
  decide (k = KEY_FN ∨ k = KEY_LEFTALT ∨ k = KEY_RIGHTALT ∨
    k = KEY_LEFTMETA ∨ k = KEY_RIGHTMETA ∨ k = KEY_LEFTCTRL ∨
    k = KEY_RIGHTCTRL ∨ k = KEY_LEFTSHIFT ∨ k = KEY_RIGHTSHIFT)

/-- The modifier test lifted to event codes, as both uses in
`remapper.rs` do it (`if let EventCode::EV_KEY(k) = … { is_modifier(&k) }`,
with non-key codes never counting as modifiers). -/
def isModCode : EventCode → Bool
  | .EV_KEY k => is_modifier k
  | _ => false

/-- `modifiers_first` from `remapper.rs`, including its dead inner
branch (`if b_ismod { Equal } else { Less }` under `a_ismod && b_ismod`):
the comparator never returns `Less`. -/
def modifiers_first (a b : KeyCode) : Ordering :=
  let a_ismod := isModCode a
  let b_ismod := isModCode b
  if a_ismod && b_ismod then
    if b_ismod then .eq else .lt
  else if b_ismod then .gt
  else .eq

/-- `modifiers_last` from `remapper.rs` (`modifiers_first(a, b).reverse()`). -/
def modifiers_last (a b : KeyCode) : Ordering :=
  (modifiers_first a b).swap

/-- Stable insertion: place `x` before the first element `y` with
`le x y`. -/
def insertLe {α : Type} (le : α → α → Bool) (x : α) : List α → List α
  | [] => [x]
  | y :: ys => if le x y then x :: y :: ys else y :: insertLe le x ys

/-- Stable insertion sort for the total preorder `le`. -/
def sortByLe {α : Type} (le : α → α → Bool) : List α → List α
  | [] => []
  | x :: xs => insertLe le x (sortByLe le xs)

/-- Model of Rust `slice::sort_by(cmp)`: a stable sort whose strict
order is `cmp a b == Less`, i.e. a stable sort for the total preorder
`le x y := cmp y x ≠ Less`. -/
def rustSortBy {α : Type} (cmp : α → α → Ordering) (l : List α) : List α :=
  sortByLe (fun x y => decide (cmp y x ≠ Ordering.lt)) l

/- ### The key-set resolver (`compute_keys`) -/

/-- Phase-A step of `compute_keys`: one `DualRole` rule applied to the
working set (`remove(input)` then insert every `hold` member). -/
def phaseAStep (keys : List KeyCode) (m : Mapping) : List KeyCode :=
  match m with
  | .DualRole input hold _ =>
    if input ∈ keys then hold.foldl (fun ks h => hsInsert h ks) (hsRemove input keys)
    else keys
  | .Remap _ _ => keys

/-- The `keys_minus_remapped` update in `compute_keys`: only non-modifier
`EV_KEY` codes are removed from the visible set. -/
def dropFromVisible (c : EventCode) (vis : List KeyCode) : List KeyCode :=
  match c with
  | .EV_KEY k => if is_modifier k then vis else hsRemove (EventCode.EV_KEY k) vis
  | _ => vis

/-- Phase-B step of `compute_keys`: one `Remap` rule applied to the pair
(primary `keys`, `keys_minus_remapped`). -/
def phaseBStep (st : List KeyCode × List KeyCode) (m : Mapping) :
    List KeyCode × List KeyCode :=
  match m with
  | .DualRole _ _ _ => st
  | .Remap input output =>
    if (input.map (·.code)).all (fun c => decide (c ∈ st.2)) then
      let s1 := input.foldl
        (fun (p : List KeyCode × List KeyCode) i =>
          (hsRemove i.code p.1, dropFromVisible i.code p.2)) st
      output.foldl
        (fun (p : List KeyCode × List KeyCode) o =>
          (hsInsert o.code p.1, dropFromVisible o.code p.2)) s1
    else st

/-- `compute_keys` from `remapper.rs`: the pure two-phase resolver, as a
function of the held input keys and the rule list. -/
def compute_keys (input_keys : List KeyCode) (mappings : List Mapping) :
    List KeyCode :=
  let keys := mappings.foldl phaseAStep input_keys
  (mappings.foldl phaseBStep (keys, keys)).1

/- ### Engine state and event emission -/

/-- The mutable state of `InputMapper` (the device handles are outside
the model; `mapped_types` is the precomputed family set). -/
structure InputMapper where
  input_state : List (KeyCode × TimeVal)
  mappings : List Mapping
  mapped_types : List EventType
  tapping : Option KeyCode
  output_keys : List KeyCode
  deriving DecidableEq, Repr

/-- `make_event` from `remapper.rs`. -/
def make_event (key : KeyCode) (time : TimeVal) (t : KeyEventType) : InputEvent :=
  ⟨time, key, t.value⟩

/-- The `SYN_REPORT` marker written by `generate_sync_event`. -/
def syn_event (time : TimeVal) : InputEvent :=
  ⟨time, .EV_SYN 0, 0⟩

/-- The `output_keys` bookkeeping performed by `write_event`: presses
and repeats of an `EV_KEY` code mark it held, releases unmark it, and
nothing else changes the set. -/
def write_event_keys (out : List KeyCode) (e : InputEvent) : List KeyCode :=
  match e.event_code with
  | .EV_KEY k =>
    match KeyEventType.from_value e.value with
    | .Press => hsInsert (EventCode.EV_KEY k) out
    | .Repeat => hsInsert (EventCode.EV_KEY k) out
    | .Release => hsRemove (EventCode.EV_KEY k) out
    | .Unknown _ => out
  | _ => out

/-- The per-key loop of `emit_keys`: write one event per key through
`write_event`, threading `output_keys` and accumulating the writes. -/
def emit_keys_go (out : List KeyCode) (time : TimeVal) (t : KeyEventType) :
    List KeyCode → List KeyCode × List InputEvent
  | [] => (out, [])
  | k :: ks =>
    let e := make_event k time t
    let r := emit_keys_go (write_event_keys out e) time t ks
    (r.1, e :: r.2)

/-- `emit_keys` from `remapper.rs`: the per-key events followed by one
sync marker. -/
def emit_keys (out : List KeyCode) (keys : List KeyCode) (time : TimeVal)
    (t : KeyEventType) : List KeyCode × List InputEvent :=
  let r := emit_keys_go out time t keys
  (r.1, r.2 ++ [syn_event time])

/-- The diff-and-emit body of `compute_and_apply_keys`, as a function of
the current `output_keys` and the resolved `desired` set. -/
def caak_emit (out : List KeyCode) (desired : List KeyCode) (time : TimeVal) :
    List KeyCode × List InputEvent :=
  let to_release := out.filter (fun k => decide (k ∉ desired))
  let to_press := desired.filter (fun k => decide (k ∉ out))
  let r1 :=
    if to_release.isEmpty then (out, [])
    else emit_keys out (rustSortBy modifiers_last to_release) time .Release
  let r2 :=
    if to_press.isEmpty then (r1.1, [])
    else emit_keys r1.1 (rustSortBy modifiers_first to_press) time .Press
  (r2.1, r1.2 ++ r2.2)

/-- `compute_and_apply_keys` from `remapper.rs`. -/
def compute_and_apply_keys (m : InputMapper) (time : TimeVal) :
    InputMapper × List InputEvent :=
  let desired := compute_keys (m.input_state.map Prod.fst) m.mappings
  let r := caak_emit m.output_keys desired time
  ({m with output_keys := r.1}, r.2)

/- ### Rule lookup -/

/-- `lookup_dual_role_mapping`: the first `DualRole` rule whose `input`
equals the code. -/
def lookup_dual_role_mapping (mappings : List Mapping) (code : KeyCode) :
    Option Mapping :=
  mappings.find? (fun m =>
    match m with
    | .DualRole input _ _ => decide (input = code)
    | .Remap _ _ => false)

/-- The direction filter applied when a `Remap` input element equals the
event code: key codes always match, non-key codes match when the scale
is zero or its sign agrees with the event value's sign. -/
def wrapperDirMatch (i : KeyCodeWrapper) (value : Int) : Bool :=
  match i.code with
  | .EV_KEY _ => true
  | _ => decide (i.scale = 0 ∨ ((i.scale < 0) ↔ (value < 0)))

/-- The candidate test for one `Remap` input set in `lookup_mapping`:
the fold with early exit over the input elements, `cm` being the
running `code_matched` flag (`all_matched` becomes `false` exactly when
the recursion returns `false` early). -/
def remapMatches (st : List (KeyCode × TimeVal)) (code : KeyCode)
    (value : Int) : List KeyCodeWrapper → Bool → Bool
  | [], cm => cm
  | i :: rest, cm =>
    if i.code = code then remapMatches st code value rest (wrapperDirMatch i value)
    else if hmContains st i.code then remapMatches st code value rest cm
    else false

/-- The chord size used to order `Remap` survivors (the `unreachable!`
arm of the Rust comparator would only see `Remap` values). -/
def remapLen : Mapping → Nat
  | .Remap input _ => input.length
  | .DualRole _ _ _ => 0

/-- The survivor comparator of `lookup_mapping`
(`input_a.len().cmp(&input_b.len()).reverse()`). -/
def remapLenCmp (a b : Mapping) : Ordering :=
  (compare (remapLen a) (remapLen b)).swap

/-- The loop of `lookup_mapping`: `DualRole` with matching input returns
immediately, `Remap` candidates are collected in declaration order, and
at the end the survivors are sorted by chord size descending and the
first is returned. -/
def lookupGo (st : List (KeyCode × TimeVal)) (code : KeyCode) (value : Int) :
    List Mapping → List Mapping → Option Mapping
  | [], acc => (rustSortBy remapLenCmp acc).head?
  | m :: rest, acc =>
    match m with
    | .DualRole input _ _ =>
      if input = code then some m else lookupGo st code value rest acc
    | .Remap input _ =>
      if remapMatches st code value input false then
        lookupGo st code value rest (acc ++ [m])
      else lookupGo st code value rest acc

/-- `lookup_mapping` from `remapper.rs`. -/
def lookup_mapping (st : List (KeyCode × TimeVal)) (mappings : List Mapping)
    (code : KeyCode) (value : Int) : Option Mapping :=
  lookupGo st code value mappings []

/- ### Tap timing -/

/-- `timeval_diff` from `remapper.rs`, in microseconds: the borrow
normalisation followed by the `as u64` cast (modelled by `% 2 ^ 64`,
which maps a negative difference to a huge value, as the cast does). -/
def timeval_diff (newer older : TimeVal) : Nat :=
  let secs := newer.tv_sec - older.tv_sec
  let usecs := newer.tv_usec - older.tv_usec
  let p := if usecs < 0 then (secs - 1, usecs + 1000000) else (secs, usecs)
  ((p.1 * 1000000 + p.2) % (2 ^ 64)).toNat

/-- The 200 ms tap window of `update_with_event`, in microseconds. -/
def tapWindowMicros : Nat := 200000

/- ### The event dispatcher (`update_with_event`) -/

/-- Reduction of an integer to the two's-complement `i32` range
`[-2^31, 2^31 - 1]`, the value a wrapping 32-bit multiplication
produces. -/
def i32wrap (x : Int) : Int :=
  (x + 2 ^ 31) % 2 ^ 32 - 2 ^ 31

/-- The axis output loop of `update_with_event`: for each output
element, a key code gets a press immediately followed by a release,
while a non-key code gets one event carrying the rescaled value
`(value / in_scale) * out_scale` in `i32` arithmetic — truncating
division, zero scales treated as 1, and the product wrapping to
two's-complement on overflow as the source's release-build `i32`
multiplication does (a debug build would abort there instead).  The
effective `in_scale` is never 0; the one aborting division,
`i32::MIN / -1`, is excluded by hypothesis where this loop's values are
characterised. -/
def axis_emit_go (time : TimeVal) (value : Int) (iw : KeyCodeWrapper)
    (out : List KeyCode) : List KeyCodeWrapper → List KeyCode × List InputEvent
  | [] => (out, [])
  | k :: ks =>
    match k.code with
    | .EV_KEY n =>
      let e1 : InputEvent := ⟨time, .EV_KEY n, KeyEventType.Press.value⟩
      let e2 : InputEvent := ⟨time, .EV_KEY n, KeyEventType.Release.value⟩
      let out2 := write_event_keys (write_event_keys out e1) e2
      let r := axis_emit_go time value iw out2 ks
      (r.1, e1 :: e2 :: r.2)
    | c =>
      let ov := i32wrap ((Int.tdiv value (if iw.scale = 0 then 1 else iw.scale)) *
        (if k.scale = 0 then 1 else k.scale))
      let e : InputEvent := ⟨time, c, ov⟩
      let r := axis_emit_go time value iw (write_event_keys out e) ks
      (r.1, e :: r.2)

/-- `update_with_event` from `remapper.rs`, returning the updated state
and the list of events written to the output device. -/
def update_with_event (m : InputMapper) (ev : InputEvent) :
    InputMapper × List InputEvent :=
  match to_event_type ev.event_code with
  | .EV_KEY =>
    match KeyEventType.from_value ev.value with
    | .Release =>
      match hmGet m.input_state ev.event_code with
      | none =>
        ({m with output_keys := write_event_keys m.output_keys ev},
          [ev, syn_event ev.time])
      | some pressed_at =>
        let m1 := {m with input_state := hmRemoveKey m.input_state ev.event_code}
        let r2 := compute_and_apply_keys m1 ev.time
        match lookup_dual_role_mapping r2.1.mappings ev.event_code with
        | some (.DualRole _ _ tap) =>
          let oldTapping := r2.1.tapping
          let m3 := {r2.1 with tapping := none}
          if oldTapping = some ev.event_code ∧
              timeval_diff ev.time pressed_at ≤ tapWindowMicros then
            let r4 := emit_keys m3.output_keys tap ev.time .Press
            let r5 := emit_keys r4.1 tap ev.time .Release
            ({m3 with output_keys := r5.1}, r2.2 ++ r4.2 ++ r5.2)
          else (m3, r2.2)
        | _ => (r2.1, r2.2)
    | .Press =>
      let m1 := {m with input_state := hmInsert m.input_state ev.event_code ev.time}
      match lookup_mapping m1.input_state m1.mappings ev.event_code
          KeyEventType.Press.value with
      | some _ =>
        let r := compute_and_apply_keys m1 ev.time
        ({r.1 with tapping := some ev.event_code}, r.2)
      | none =>
        let m2 := {m1 with tapping := none}
        compute_and_apply_keys m2 ev.time
    | .Repeat =>
      match lookup_mapping m.input_state m.mappings ev.event_code
          KeyEventType.Repeat.value with
      | some (.DualRole _ hold _) =>
        let r := emit_keys m.output_keys hold ev.time .Repeat
        ({m with output_keys := r.1}, r.2)
      | some (.Remap _ output) =>
        let r := emit_keys m.output_keys (output.map (·.code)) ev.time .Repeat
        ({m with output_keys := r.1}, r.2)
      | none =>
        let m1 := {m with tapping := none}
        ({m1 with output_keys := write_event_keys m1.output_keys ev},
          [ev, syn_event ev.time])
    | .Unknown _ =>
      ({m with output_keys := write_event_keys m.output_keys ev},
        [ev, syn_event ev.time])
  | _ =>
    match lookup_mapping m.input_state m.mappings ev.event_code ev.value with
    | some (.Remap input output) =>
      match input.find? (fun w => decide (w.code = ev.event_code) &&
          decide (w.scale = 0 ∨ ((w.scale < 0) ↔ (ev.value < 0)))) with
      | some iw =>
        let r := axis_emit_go ev.time ev.value iw m.output_keys output
        ({m with output_keys := r.1}, r.2 ++ [syn_event ev.time])
      | none => (m, [])
    | _ =>
      let m1 := {m with tapping := none}
      ({m1 with output_keys := write_event_keys m1.output_keys ev},
        [ev, syn_event ev.time])

/- ### The read-loop step and the mapped family set -/

/-- The family set computed in `create_mapper` from the `input` side of
every rule. -/
def mappedTypesOf (mappings : List Mapping) : List EventType :=
  mappings.foldl (fun s m =>
    match m with
    | .DualRole input _ _ => hsInsert (to_event_type input) s
    | .Remap input _ =>
      input.foldl (fun s2 i => hsInsert (to_event_type i.code) s2) s) []

/-- One iteration of `run_mapper` on a successfully read event: mapped
families are dispatched to `update_with_event`; everything else is
written through verbatim (without the `write_event` bookkeeping). -/
def run_mapper_step (m : InputMapper) (ev : InputEvent) :
    InputMapper × List InputEvent :=
  if to_event_type ev.event_code ∈ m.mapped_types then update_with_event m ev
  else (m, [ev])

/-- `run_mapper_step` folded over an event list, concatenating the
written output. -/
def run_mapper_steps (m : InputMapper) :
    List InputEvent → InputMapper × List InputEvent
  | [] => (m, [])
  | ev :: evs =>
    let r := run_mapper_step m ev
    let r2 := run_mapper_steps r.1 evs
    (r2.1, r.2 ++ r2.2)

/-- Modelled from the spec: the held-key set of the synthetic output
device (external uinput device, §4.4 of the spec) as a function of the
event stream written to it — a key press or repeat marks the code held,
a key release unmarks it, and no other event changes the set. -/
def device_held_step (held : List KeyCode) (e : InputEvent) : List KeyCode :=
  match e.event_code with
  | .EV_KEY k =>
    if e.value = 1 ∨ e.value = 2 then hsInsert (EventCode.EV_KEY k) held
    else if e.value = 0 then hsRemove (EventCode.EV_KEY k) held
    else held
  | _ => held

/-- The device held-key set after a stream of written events. -/
def device_held (held : List KeyCode) (evs : List InputEvent) : List KeyCode :=
  evs.foldl device_held_step held

/- ### The KeyRef string parser (`KeyCodeWrapper::try_from`) -/

/-- The outcome of `KeyCodeWrapper::try_from`: success, the
`ConfigError::InvalidKey` error carrying the offending token, or an
abnormal termination (a Rust `unwrap` on `None`/`Err`). -/
inductive ParseOutcome where
  | ok (code : EventCode) (scale : Int)
  | err (tok : String)
  | crash
  deriving DecidableEq, Repr

/-- Is the character a `'+'` or `'-'` (the pattern of
`s.rmatch_indices(&['+', '-'])`)? -/
def isSignChar (c : Char) : Bool :=
  decide (c = '+' ∨ c = '-')

/-- The index of the last `'+'`/`'-'` in the string
(`s.rmatch_indices(&['+', '-']).next()`), if any. -/
def lastSignIdx : List Char → Option Nat
  | [] => none
  | c :: cs =>
    match lastSignIdx cs with
    | some i => some (i + 1)
    | none => if isSignChar c then some 0 else none

/-- Decimal digit test. -/
def isDigitChar (c : Char) : Bool :=
  decide ('0' ≤ c ∧ c ≤ '9')

/-- Value of a nonempty all-digit sequence. -/
def digitsVal (ds : List Char) : Nat :=
  ds.foldl (fun a c => a * 10 + (c.toNat - 48)) 0

/-- Rust `str::parse::<i32>()`: an optional single leading sign, at
least one digit, nothing else, and the value must fit in `i32`. -/
def rustParseI32 (cs : List Char) : Option Int :=
  let core : List Char → Int → Option Int := fun ds sign =>
    if ds ≠ [] ∧ ds.all isDigitChar then
      let v : Int := sign * (digitsVal ds : Int)
      if -2147483648 ≤ v ∧ v ≤ 2147483647 then some v else none
    else none
  match cs with
  | [] => none
  | '+' :: ds => core ds 1
  | '-' :: ds => core ds (-1)
  | ds => core ds 1

/-- `str::split_once("_")`: the part before the first underscore, or
`none` when there is no underscore (where the source `unwrap`s). -/
def splitOnceUnderscore : List Char → Option (List Char)
  | [] => none
  | c :: cs =>
    if c = '_' then some []
    else (splitOnceUnderscore cs).map (fun p => c :: p)

/-- The tail of `KeyCodeWrapper::try_from` after name and scale have
been separated: split off the family prefix (panicking when there is no
underscore), normalise `BTN` to `KEY`, default the `KEY` scale from 0
to 1, and resolve the name through the external evdev lookup tables
(`EventType::from_str` / `EventCode::from_str`, passed as parameters). -/
def tryFromFinish (etTbl : String → Option EventType)
    (ecTbl : EventType → String → Option EventCode)
    (name : List Char) (scale : Int) : ParseOutcome :=
  match splitOnceUnderscore name with
  | none => .crash
  | some fam0 =>
    let fam := if fam0 = "BTN".data then "KEY".data else fam0
    let scale1 := if fam = "KEY".data ∧ scale = 0 then 1 else scale
    match etTbl ("EV_" ++ String.mk fam) with
    | some et =>
      match ecTbl et (String.mk name) with
      | some code => .ok code scale1
      | none => .err (String.mk name)
    | none => .err (String.mk name)

/-- `KeyCodeWrapper::try_from` from `mapping.rs`: split at the last
`'+'`/`'-'`; more than one trailing character parses as the `i32` scale
(`unwrap` — a crash — on failure), a lone `'-'` gives scale −1, a lone
`'+'` keeps the initial scale 1; with no sign the scale starts at 0. -/
def tryFromString (etTbl : String → Option EventType)
    (ecTbl : EventType → String → Option EventCode) (s : String) :
    ParseOutcome :=
  let cs := s.data
  match lastSignIdx cs with
  | none => tryFromFinish etTbl ecTbl cs 0
  | some i =>
    let name := cs.take i
    let scaleStr := cs.drop i
    if scaleStr.length > 1 then
      match rustParseI32 scaleStr with
      | some v => tryFromFinish etTbl ecTbl name v
      | none => .crash
    else if scaleStr = ['-'] then tryFromFinish etTbl ecTbl name (-1)
    else tryFromFinish etTbl ecTbl name 1

/-- A concrete instance of the external evdev event-type name table,
for evaluating the parser on closed inputs. -/
def sampleEtTbl (s : String) : Option EventType :=
  if s = "EV_KEY" then some .EV_KEY
  else if s = "EV_REL" then some .EV_REL
  else if s = "EV_ABS" then some .EV_ABS
  else none

/-- A concrete instance of the external evdev code name table, for
evaluating the parser on closed inputs. -/
def sampleEcTbl (et : EventType) (s : String) : Option EventCode :=
  match et with
  | .EV_KEY =>
    if s = "KEY_A" then some (.EV_KEY KEY_A)
    else if s = "KEY_ESC" then some (.EV_KEY KEY_ESC)
    else if s = "BTN_LEFT" then some (.EV_KEY BTN_LEFT)
    else none
  | .EV_REL =>
    if s = "REL_WHEEL" then some (.EV_REL REL_WHEEL)
    else none
  | _ => none

/- ### Definitions following the spec's words -/

/-- Written from the claim's words (C1): the Phase-B visibility update
that drops every removed or inserted code from `visible` unless that
code is a modifier — with no key-family restriction. -/
def claimDropFromVisible (c : EventCode) (vis : List KeyCode) : List KeyCode :=
  if isModCode c then vis else hsRemove c vis

/-- The Phase-A algorithm as the spec words it: for every DualRole rule
in declaration order whose input is in the working set, remove the
input and insert every member of `hold`, applied immediately. -/
def specPhaseA (keys : List KeyCode) : List Mapping → List KeyCode
  | [] => keys
  | .DualRole input hold _ :: rest =>
    if input ∈ keys then
      specPhaseA ((keys.filter (fun c => decide (c ≠ input))) ++ hold) rest
    else specPhaseA keys rest
  | .Remap _ _ :: rest => specPhaseA keys rest

/-- The Phase-B algorithm as the spec words it, parameterised by the
visibility-drop rule: for each Remap rule in declaration order whose
input codes are all contained in `visible`, remove every input code
from the primary set, insert every output code into it, and apply the
drop rule to `visible` for each removed or inserted code. -/
def specPhaseB (drop : EventCode → List KeyCode → List KeyCode)
    (primary visible : List KeyCode) : List Mapping → List KeyCode
  | [] => primary
  | .DualRole _ _ _ :: rest => specPhaseB drop primary visible rest
  | .Remap input output :: rest =>
    if (input.map (·.code)).all (fun c => decide (c ∈ visible)) then
      let removed := input.map (·.code)
      let inserted := output.map (·.code)
      let primary2 := (primary.filter (fun c => decide (c ∉ removed))) ++ inserted
      let visible2 := inserted.foldl (fun v c => drop c v)
        (removed.foldl (fun v c => drop c v) visible)
      specPhaseB drop primary2 visible2 rest
    else specPhaseB drop primary visible rest

/-- The two-phase resolver algorithm as the claim words it,
parameterised by the Phase-B visibility-drop rule. -/
def specComputeKeysWith (drop : EventCode → List KeyCode → List KeyCode)
    (input_keys : List KeyCode) (mappings : List Mapping) : List KeyCode :=
  let keys := specPhaseA input_keys mappings
  specPhaseB drop keys keys mappings

/-- Written from the claim's words (C9): the modifier set prescribed by
the spec — the codes configured in the mapping table, or, when that set
is empty, the default nine. -/
def specIsModifier (configured : List Nat) (k : Nat) : Bool :=
  if configured = [] then is_modifier k else decide (k ∈ configured)

/-- Written from the grammar `NAME[±[N]]` of the claim (C10): split a
string into the name part and the trailing sign-plus-digits part (from
the last sign character onwards; empty when there is no sign). -/
def specSplitSign : List Char → List Char × List Char
  | [] => ([], [])
  | c :: cs =>
    let r := specSplitSign cs
    if r.2 = [] then
      if isSignChar c then ([], c :: cs) else (c :: cs, [])
    else (c :: r.1, r.2)

/-- The KeyRef grammar `NAME[±[N]]` as the amended claim words it: a
bare name keeps scale 0 (raised to 1 for the KEY family), a lone
trailing sign sets direction with magnitude 1, digits after the sign
set the signed magnitude (crashing when they do not parse as an `i32`),
and a name part without an underscore crashes. -/
def specTryFromString (etTbl : String → Option EventType)
    (ecTbl : EventType → String → Option EventCode) (s : String) :
    ParseOutcome :=
  let r := specSplitSign s.data
  match r.2 with
  | [] => tryFromFinish etTbl ecTbl r.1 0
  | [c] => tryFromFinish etTbl ecTbl r.1 (if c = '-' then -1 else 1)
  | _ :: _ :: _ =>
    match rustParseI32 r.2 with
    | some v => tryFromFinish etTbl ecTbl r.1 v
    | none => .crash

/- ### Basic lemmas about the container models -/

theorem mem_hsInsert {α : Type} [DecidableEq α] (x y : α) (l : List α) :
    x ∈ hsInsert y l ↔ x = y ∨ x ∈ l := by
  unfold hsInsert
  split
  · constructor
    · exact fun h => Or.inr h
    · rintro (rfl | h) <;> assumption
  · simp [or_comm]

theorem mem_hsRemove {α : Type} [DecidableEq α] (x y : α) (l : List α) :
    x ∈ hsRemove y l ↔ x ∈ l ∧ x ≠ y := by
  simp [hsRemove, List.mem_filter]

theorem mem_insertLe {α : Type} (le : α → α → Bool) (x y : α) (l : List α) :
    x ∈ insertLe le y l ↔ x = y ∨ x ∈ l := by
  induction l with
  | nil => simp [insertLe]
  | cons a t ih =>
    unfold insertLe
    split
    · simp
    · simp only [List.mem_cons, ih]
      tauto

theorem mem_sortByLe {α : Type} (le : α → α → Bool) (x : α) (l : List α) :
    x ∈ sortByLe le l ↔ x ∈ l := by
  induction l with
  | nil => simp [sortByLe]
  | cons a t ih => simp [sortByLe, mem_insertLe, ih]

theorem mem_rustSortBy {α : Type} (cmp : α → α → Ordering) (x : α) (l : List α) :
    x ∈ rustSortBy cmp l ↔ x ∈ l := by
  simp [rustSortBy, mem_sortByLe]

theorem sortByLe_eq_nil_iff {α : Type} (le : α → α → Bool) (l : List α) :
    sortByLe le l = [] ↔ l = [] := by
  cases l with
  | nil => simp [sortByLe]
  | cons a t =>
    simp only [sortByLe]
    constructor
    · intro h
      have : a ∈ insertLe le a (sortByLe le t) := by
        rw [mem_insertLe]; exact Or.inl rfl
      rw [h] at this
      cases this
    · intro h
      cases h

/-- The head of a stable insertion sort is `le`-below every element of
the list, provided `le` is total and transitive. -/
theorem sortByLe_head_le {α : Type} (le : α → α → Bool)
    (htot : ∀ a b, le a b = true ∨ le b a = true)
    (htrans : ∀ a b c, le a b = true → le b c = true → le a c = true) :
    ∀ (l : List α) (x : α) (t : List α), sortByLe le l = x :: t →
      ∀ y ∈ l, le x y = true := by
  intro l
  induction l with
  | nil => intro x t h; cases h
  | cons a s ih =>
    intro x t h y hy
    have hrefl : ∀ b, le b b = true := fun b => (htot b b).elim id id
    rw [sortByLe] at h
    rcases hs : sortByLe le s with _ | ⟨b, u⟩
    · rw [hs] at h
      simp only [insertLe] at h
      cases h
      have : s = [] := (sortByLe_eq_nil_iff le s).mp hs
      subst this
      rcases List.mem_singleton.mp hy with rfl
      exact hrefl y
    · rw [hs] at h
      rw [insertLe] at h
      by_cases hab : le a b = true
      · rw [if_pos hab] at h
        injection h with h1 h2
        subst h1
        rcases List.mem_cons.mp hy with rfl | hy'
        · exact hrefl _
        · have hyb : y ∈ b :: u := by rw [← hs, mem_sortByLe]; exact hy'
          rcases List.mem_cons.mp hyb with rfl | hyu
          · exact hab
          · exact htrans a b y hab (ih b u hs y hy')
      · rw [if_neg hab] at h
        injection h with h1 h2
        subst h1
        have hba : le b a = true := (htot a b).resolve_left hab
        rcases List.mem_cons.mp hy with rfl | hy'
        · exact hba
        · exact ih b u hs y hy'

theorem rustSortBy_mem_self {α : Type} (cmp : α → α → Ordering) (l : List α)
    (x : α) (t : List α) (h : rustSortBy cmp l = x :: t) : x ∈ l := by
  rw [← mem_rustSortBy cmp, h]
  exact List.mem_cons_self x t

/- ### Fold-level membership lemmas -/

theorem mem_foldl_hsInsert (cs : List KeyCode) (p0 : List KeyCode) (x : KeyCode) :
    x ∈ cs.foldl (fun p c => hsInsert c p) p0 ↔ x ∈ p0 ∨ x ∈ cs := by
  induction cs generalizing p0 with
  | nil => simp
  | cons c t ih =>
    simp only [List.foldl_cons, ih, mem_hsInsert, List.mem_cons]
    tauto

theorem mem_foldl_hsRemove (cs : List KeyCode) (p0 : List KeyCode) (x : KeyCode) :
    x ∈ cs.foldl (fun p c => hsRemove c p) p0 ↔ x ∈ p0 ∧ x ∉ cs := by
  induction cs generalizing p0 with
  | nil => simp
  | cons c t ih =>
    simp only [List.foldl_cons, ih, mem_hsRemove, List.mem_cons]
    tauto

/-- Does Phase B drop this code from the visible set (a non-modifier
key-family code)? -/
def visDrops (c : EventCode) : Bool :=
  match c with
  | .EV_KEY k => !is_modifier k
  | _ => false

theorem dropFromVisible_eq_ite (c : EventCode) (v : List KeyCode) :
    dropFromVisible c v = if visDrops c = true then hsRemove c v else v := by
  cases c <;> simp [dropFromVisible, visDrops] <;> split <;> simp_all

theorem mem_dropFromVisible (c : EventCode) (v : List KeyCode) (x : KeyCode) :
    x ∈ dropFromVisible c v ↔ x ∈ v ∧ ¬(x = c ∧ visDrops c = true) := by
  rw [dropFromVisible_eq_ite]
  split
  · rename_i hd
    simp only [mem_hsRemove, hd]
    tauto
  · rename_i hd
    simp [hd]

theorem mem_foldl_dropFromVisible (cs : List EventCode) (v : List KeyCode)
    (x : KeyCode) :
    x ∈ cs.foldl (fun p c => dropFromVisible c p) v ↔
      x ∈ v ∧ ¬(x ∈ cs ∧ visDrops x = true) := by
  induction cs generalizing v with
  | nil => simp
  | cons c t ih =>
    simp only [List.foldl_cons, ih, mem_dropFromVisible, List.mem_cons]
    constructor
    · rintro ⟨⟨hv, hnc⟩, hnt⟩
      refine ⟨hv, ?_⟩
      rintro ⟨(rfl | hxt), hd⟩
      · exact hnc ⟨rfl, hd⟩
      · exact hnt ⟨hxt, hd⟩
    · rintro ⟨hv, hn⟩
      refine ⟨⟨hv, ?_⟩, ?_⟩
      · rintro ⟨rfl, hd⟩; exact hn ⟨Or.inl rfl, hd⟩
      · rintro ⟨hxt, hd⟩; exact hn ⟨Or.inr hxt, hd⟩

/-- A fold acting independently on the two components of a pair splits
into two folds. -/
theorem foldl_pair_split {α β γ : Type} (f : γ → α → α) (g : γ → β → β)
    (cs : List γ) (a : α) (b : β) :
    cs.foldl (fun (p : α × β) c => (f c p.1, g c p.2)) (a, b) =
      (cs.foldl (fun x c => f c x) a, cs.foldl (fun y c => g c y) b) := by
  induction cs generalizing a b with
  | nil => rfl
  | cons c t ih => simp only [List.foldl_cons]; exact ih (f c a) (g c b)

theorem mem_foldl_hsRemove_code (ws : List KeyCodeWrapper)
    (p0 : List KeyCode) (x : KeyCode) :
    x ∈ ws.foldl (fun a w => hsRemove w.code a) p0 ↔
      x ∈ p0 ∧ x ∉ ws.map (·.code) := by
  induction ws generalizing p0 with
  | nil => simp
  | cons w t ih =>
    simp only [List.foldl_cons, ih, mem_hsRemove, List.map_cons, List.mem_cons]
    tauto

theorem mem_foldl_hsInsert_code (ws : List KeyCodeWrapper)
    (p0 : List KeyCode) (x : KeyCode) :
    x ∈ ws.foldl (fun a w => hsInsert w.code a) p0 ↔
      x ∈ p0 ∨ x ∈ ws.map (·.code) := by
  induction ws generalizing p0 with
  | nil => simp
  | cons w t ih =>
    simp only [List.foldl_cons, ih, mem_hsInsert, List.map_cons, List.mem_cons]
    tauto

theorem mem_foldl_dropVis_code (ws : List KeyCodeWrapper)
    (v0 : List KeyCode) (x : KeyCode) :
    x ∈ ws.foldl (fun b w => dropFromVisible w.code b) v0 ↔
      x ∈ v0 ∧ ¬(x ∈ ws.map (·.code) ∧ visDrops x = true) := by
  induction ws generalizing v0 with
  | nil => simp
  | cons w t ih =>
    simp only [List.foldl_cons, ih, mem_dropFromVisible, List.map_cons,
      List.mem_cons]
    constructor
    · rintro ⟨⟨hv0, hnc⟩, hnt⟩
      refine ⟨hv0, ?_⟩
      rintro ⟨(rfl | hxt), hd⟩
      · exact hnc ⟨rfl, hd⟩
      · exact hnt ⟨hxt, hd⟩
    · rintro ⟨hv0, hn⟩
      refine ⟨⟨hv0, ?_⟩, ?_⟩
      · rintro ⟨rfl, hd⟩; exact hn ⟨Or.inl rfl, hd⟩
      · rintro ⟨hxt, hd⟩; exact hn ⟨Or.inr hxt, hd⟩

/- ### The resolver agrees with the (amended) spec algorithm -/

theorem phaseA_equiv (ms : List Mapping) :
    ∀ (k1 k2 : List KeyCode), (∀ x, x ∈ k1 ↔ x ∈ k2) →
      ∀ x, x ∈ ms.foldl phaseAStep k1 ↔ x ∈ specPhaseA k2 ms := by
  induction ms with
  | nil => intro k1 k2 h x; simpa using h x
  | cons m rest ih =>
    intro k1 k2 h x
    match m with
    | .Remap input output =>
      simp only [List.foldl_cons, phaseAStep, specPhaseA]
      exact ih k1 k2 h x
    | .DualRole input hold tap =>
      simp only [List.foldl_cons, phaseAStep, specPhaseA]
      by_cases hin : input ∈ k2
      · rw [if_pos ((h input).mpr hin), if_pos hin]
        refine ih _ _ (fun y => ?_) x
        rw [mem_foldl_hsInsert, mem_hsRemove, List.mem_append, List.mem_filter]
        simp only [decide_eq_true_eq, h y]
      · rw [if_neg (fun hc => hin ((h input).mp hc)), if_neg hin]
        exact ih k1 k2 h x

theorem phaseB_equiv (ms : List Mapping) :
    ∀ (p1 v1 p2 v2 : List KeyCode),
      (∀ x, x ∈ p1 ↔ x ∈ p2) → (∀ x, x ∈ v1 ↔ x ∈ v2) →
      ∀ x, x ∈ (ms.foldl phaseBStep (p1, v1)).1 ↔
        x ∈ specPhaseB dropFromVisible p2 v2 ms := by
  induction ms with
  | nil => intro p1 v1 p2 v2 hp hv x; simpa using hp x
  | cons m rest ih =>
    intro p1 v1 p2 v2 hp hv x
    match m with
    | .DualRole input hold tap =>
      simp only [List.foldl_cons, phaseBStep, specPhaseB]
      exact ih p1 v1 p2 v2 hp hv x
    | .Remap input output =>
      simp only [List.foldl_cons, phaseBStep, specPhaseB]
      have hcond : ((input.map (·.code)).all (fun c => decide (c ∈ v1))) =
          ((input.map (·.code)).all (fun c => decide (c ∈ v2))) := by
        rw [Bool.eq_iff_iff]
        simp only [List.all_eq_true, decide_eq_true_eq]
        constructor
        · intro hall c hc
          exact (hv c).mp (hall c hc)
        · intro hall c hc
          exact (hv c).mpr (hall c hc)
      by_cases h2 : ((input.map (·.code)).all (fun c => decide (c ∈ v2))) = true
      · rw [hcond, if_pos h2, if_pos h2]
        rw [foldl_pair_split, foldl_pair_split]
        dsimp only
        refine ih _ _ _ _ (fun y => ?_) (fun y => ?_) x
        · rw [mem_foldl_hsInsert_code, mem_foldl_hsRemove_code, List.mem_append,
            List.mem_filter]
          simp only [decide_eq_true_eq, hp y]
        · rw [mem_foldl_dropVis_code, mem_foldl_dropVis_code,
            mem_foldl_dropFromVisible, mem_foldl_dropFromVisible]
          simp only [hv y]
      · rw [hcond, if_neg h2, if_neg h2]
        exact ih p1 v1 p2 v2 hp hv x

/-- The concrete configuration exhibiting the Phase-B visibility
difference: a DualRole hold that injects a non-key code, and two Remap
rules consuming that code. -/
def c1CexMappings : List Mapping :=
  [ .DualRole (.EV_KEY KEY_CAPSLOCK) [.EV_REL REL_WHEEL] []
  , .Remap [⟨.EV_REL REL_WHEEL, 0⟩] [⟨.EV_KEY KEY_A, 1⟩]
  , .Remap [⟨.EV_REL REL_WHEEL, 0⟩] [⟨.EV_KEY KEY_B, 1⟩] ]

/- ### Emission and bookkeeping lemmas -/

/-- Is the code in the `KEY` family? -/
def isKeyFam : EventCode → Bool
  | .EV_KEY _ => true
  | _ => false

theorem emit_keys_go_events (out : List KeyCode) (time : TimeVal)
    (t : KeyEventType) (ks : List KeyCode) :
    (emit_keys_go out time t ks).2 = ks.map (fun k => make_event k time t) := by
  induction ks generalizing out with
  | nil => rfl
  | cons k rest ih => simp only [emit_keys_go, List.map_cons, ih]

theorem emit_keys_events (out : List KeyCode) (keys : List KeyCode)
    (time : TimeVal) (t : KeyEventType) :
    (emit_keys out keys time t).2 =
      keys.map (fun k => make_event k time t) ++ [syn_event time] := by
  simp only [emit_keys, emit_keys_go_events]

theorem caak_input_state (m : InputMapper) (t : TimeVal) :
    (compute_and_apply_keys m t).1.input_state = m.input_state := rfl

theorem caak_mappings (m : InputMapper) (t : TimeVal) :
    (compute_and_apply_keys m t).1.mappings = m.mappings := rfl

theorem caak_tapping (m : InputMapper) (t : TimeVal) :
    (compute_and_apply_keys m t).1.tapping = m.tapping := rfl

theorem write_event_keys_eq_device_step (out : List KeyCode) (e : InputEvent) :
    write_event_keys out e = device_held_step out e := by
  rcases e with ⟨t, c, v⟩
  cases c <;> (try rfl)
  simp only [write_event_keys, device_held_step]
  by_cases h0 : v = 0
  · subst h0; simp [KeyEventType.from_value]
  · by_cases h1 : v = 1
    · subst h1; simp [KeyEventType.from_value]
    · by_cases h2 : v = 2
      · subst h2; simp [KeyEventType.from_value]
      · simp [KeyEventType.from_value, h0, h1, h2]

theorem device_held_append (h : List KeyCode) (a b : List InputEvent) :
    device_held h (a ++ b) = device_held (device_held h a) b := by
  simp [device_held, List.foldl_append]

theorem device_held_syn (h : List KeyCode) (t : TimeVal) :
    device_held_step h (syn_event t) = h := rfl

theorem emit_keys_go_tracks (ks : List KeyCode) (out : List KeyCode)
    (time : TimeVal) (t : KeyEventType) :
    (emit_keys_go out time t ks).1 =
      device_held out (emit_keys_go out time t ks).2 := by
  induction ks generalizing out with
  | nil => rfl
  | cons k rest ih =>
    simp only [emit_keys_go, device_held, List.foldl_cons]
    rw [← write_event_keys_eq_device_step]
    exact ih (write_event_keys out (make_event k time t))

theorem emit_keys_tracks (out : List KeyCode) (keys : List KeyCode)
    (time : TimeVal) (t : KeyEventType) :
    (emit_keys out keys time t).1 =
      device_held out (emit_keys out keys time t).2 := by
  simp only [emit_keys, device_held_append]
  rw [← emit_keys_go_tracks]
  rfl

theorem caak_emit_tracks (out desired : List KeyCode) (time : TimeVal) :
    (caak_emit out desired time).1 =
      device_held out (caak_emit out desired time).2 := by
  unfold caak_emit
  dsimp only
  split
  · split
    · rfl
    · dsimp only
      rw [List.append_nil]
      exact emit_keys_tracks _ _ _ _
  · split
    · dsimp only
      rw [List.nil_append]
      exact emit_keys_tracks _ _ _ _
    · rw [device_held_append, ← emit_keys_tracks]
      exact emit_keys_tracks _ _ _ _

theorem caak_tracks (m : InputMapper) (t : TimeVal) :
    (compute_and_apply_keys m t).1.output_keys =
      device_held m.output_keys (compute_and_apply_keys m t).2 :=
  caak_emit_tracks m.output_keys
    (compute_keys (m.input_state.map Prod.fst) m.mappings) t

theorem axis_emit_go_tracks (ks : List KeyCodeWrapper) (time : TimeVal)
    (value : Int) (iw : KeyCodeWrapper) (out : List KeyCode) :
    (axis_emit_go time value iw out ks).1 =
      device_held out (axis_emit_go time value iw out ks).2 := by
  induction ks generalizing out with
  | nil => rfl
  | cons k rest ih =>
    rcases hk : k.code with _ | n | _ | _ | _ | _ | _ | _ | _ | _ | _ | _ | _ <;>
      simp only [axis_emit_go, hk, device_held, List.foldl_cons] <;>
      rw [← write_event_keys_eq_device_step] <;>
      exact ih _

theorem caak_tracks_fields (m : InputMapper) (st : List (KeyCode × TimeVal))
    (tp : Option KeyCode) (t : TimeVal) :
    (compute_and_apply_keys
        ⟨st, m.mappings, m.mapped_types, tp, m.output_keys⟩ t).1.output_keys =
      device_held m.output_keys
        (compute_and_apply_keys
          ⟨st, m.mappings, m.mapped_types, tp, m.output_keys⟩ t).2 :=
  caak_tracks _ t

theorem update_with_event_tracks (m : InputMapper) (ev : InputEvent) :
    (update_with_event m ev).1.output_keys =
      device_held m.output_keys (update_with_event m ev).2 := by
  unfold update_with_event
  split
  · -- EV_KEY events
    split
    · -- Release
      split
      · -- no recorded press: passthrough with sync
        simp [device_held, write_event_keys_eq_device_step, device_held_syn]
      · -- recorded press: reconcile, then maybe tap
        dsimp only
        split
        · -- a DualRole rule exists for the code
          split
          · -- tap fires
            rw [device_held_append, device_held_append,
              ← caak_tracks_fields, ← emit_keys_tracks, ← emit_keys_tracks]
          · -- tap does not fire
            exact caak_tracks_fields ..
        · -- no DualRole rule
          exact caak_tracks_fields ..
    · -- Press
      dsimp only
      split
      · -- some rule matches: reconcile then arm tapping
        exact caak_tracks_fields ..
      · -- no rule: cancel tap and reconcile
        exact caak_tracks_fields ..
    · -- Repeat
      split
      · exact emit_keys_tracks ..
      · exact emit_keys_tracks ..
      · simp [device_held, write_event_keys_eq_device_step, device_held_syn]
    · -- Unknown value
      simp [device_held, write_event_keys_eq_device_step, device_held_syn]
  · -- non-key events
    split
    · -- matching Remap rule
      split
      · -- a direction-matching wrapper exists
        rw [device_held_append, ← axis_emit_go_tracks]
        simp [device_held, device_held_syn]
      · -- no wrapper: nothing is written
        rfl
    · -- passthrough
      simp [device_held, write_event_keys_eq_device_step, device_held_syn]

/- ### Membership through the diff-and-emit engine -/

theorem write_release_key (out : List KeyCode) (k : KeyCode) (time : TimeVal)
    (hk : isKeyFam k = true) :
    write_event_keys out (make_event k time .Release) = hsRemove k out := by
  cases k <;> simp_all [isKeyFam, write_event_keys, make_event,
    KeyEventType.value, KeyEventType.from_value]

theorem write_press_key (out : List KeyCode) (k : KeyCode) (time : TimeVal)
    (hk : isKeyFam k = true) :
    write_event_keys out (make_event k time .Press) = hsInsert k out := by
  cases k <;> simp_all [isKeyFam, write_event_keys, make_event,
    KeyEventType.value, KeyEventType.from_value]

theorem mem_emit_go_release (ks : List KeyCode) (out : List KeyCode)
    (time : TimeVal) (hks : ∀ k ∈ ks, isKeyFam k = true) (x : KeyCode) :
    x ∈ (emit_keys_go out time .Release ks).1 ↔ x ∈ out ∧ x ∉ ks := by
  induction ks generalizing out with
  | nil => simp [emit_keys_go]
  | cons k rest ih =>
    simp only [emit_keys_go]
    rw [write_release_key out k time (hks k (List.mem_cons_self k rest))]
    rw [ih (hsRemove k out) (fun a ha => hks a (List.mem_cons_of_mem k ha))]
    simp only [mem_hsRemove, List.mem_cons]
    tauto

theorem mem_emit_go_press (ks : List KeyCode) (out : List KeyCode)
    (time : TimeVal) (hks : ∀ k ∈ ks, isKeyFam k = true) (x : KeyCode) :
    x ∈ (emit_keys_go out time .Press ks).1 ↔ x ∈ out ∨ x ∈ ks := by
  induction ks generalizing out with
  | nil => simp [emit_keys_go]
  | cons k rest ih =>
    simp only [emit_keys_go]
    rw [write_press_key out k time (hks k (List.mem_cons_self k rest))]
    rw [ih (hsInsert k out) (fun a ha => hks a (List.mem_cons_of_mem k ha))]
    simp only [mem_hsInsert, List.mem_cons]
    tauto

theorem caak_emit_mem (out desired : List KeyCode) (time : TimeVal)
    (hout : ∀ c ∈ out, isKeyFam c = true)
    (hdes : ∀ c ∈ desired, isKeyFam c = true) (x : KeyCode) :
    x ∈ (caak_emit out desired time).1 ↔ x ∈ desired := by
  have hrel : ∀ y, y ∈ rustSortBy modifiers_last
      (out.filter (fun k => decide (k ∉ desired))) ↔ y ∈ out ∧ y ∉ desired := by
    intro y
    rw [mem_rustSortBy, List.mem_filter]
    simp
  have hprs : ∀ y, y ∈ rustSortBy modifiers_first
      (desired.filter (fun k => decide (k ∉ out))) ↔ y ∈ desired ∧ y ∉ out := by
    intro y
    rw [mem_rustSortBy, List.mem_filter]
    simp
  unfold caak_emit
  dsimp only
  split
  · -- to_press is empty: desired ⊆ out
    rename_i hp
    rw [List.isEmpty_iff, List.filter_eq_nil_iff] at hp
    simp only [decide_eq_true_eq, not_not] at hp
    split
    · -- to_release also empty: out ⊆ desired
      rename_i hr
      rw [List.isEmpty_iff, List.filter_eq_nil_iff] at hr
      simp only [decide_eq_true_eq, not_not] at hr
      exact ⟨fun h => hr x h, fun h => hp x h⟩
    · -- releases emitted
      dsimp only [emit_keys]
      rw [mem_emit_go_release _ _ _
        (fun k hk => hout k ((hrel k).mp hk).1), hrel x]
      constructor
      · rintro ⟨hxo, hn⟩
        by_contra hxd
        exact hn ⟨hxo, hxd⟩
      · intro hxd
        exact ⟨hp x hxd, fun hc => hc.2 hxd⟩
  · -- presses emitted
    rename_i hp
    dsimp only [emit_keys]
    rw [mem_emit_go_press _ _ _ (fun k hk => hdes k ((hprs k).mp hk).1), hprs x]
    split
    · -- no releases
      rename_i hr
      rw [List.isEmpty_iff, List.filter_eq_nil_iff] at hr
      simp only [decide_eq_true_eq, not_not] at hr
      constructor
      · rintro (hxo | ⟨hxd, _⟩)
        · exact hr x hxo
        · exact hxd
      · intro hxd
        by_cases hxo : x ∈ out
        · exact Or.inl hxo
        · exact Or.inr ⟨hxd, hxo⟩
    · -- releases emitted
      dsimp only [emit_keys]
      rw [mem_emit_go_release _ _ _
        (fun k hk => hout k ((hrel k).mp hk).1), hrel x]
      constructor
      · rintro (⟨hxo, hn⟩ | ⟨hxd, _⟩)
        · by_contra hxd
          exact hn ⟨hxo, hxd⟩
        · exact hxd
      · intro hxd
        by_cases hxo : x ∈ out
        · exact Or.inl ⟨hxo, fun hc => hc.2 hxd⟩
        · exact Or.inr ⟨hxd, hxo⟩

theorem caak_out_mem (m : InputMapper) (t : TimeVal)
    (hout : ∀ c ∈ m.output_keys, isKeyFam c = true)
    (hdes : ∀ c ∈ compute_keys (m.input_state.map Prod.fst) m.mappings,
      isKeyFam c = true) (x : KeyCode) :
    x ∈ (compute_and_apply_keys m t).1.output_keys ↔
      x ∈ compute_keys (m.input_state.map Prod.fst) m.mappings :=
  caak_emit_mem m.output_keys _ t hout hdes x

theorem caak_emit_no_events (out desired : List KeyCode) (time : TimeVal)
    (h1 : out.filter (fun k => decide (k ∉ desired)) = [])
    (h2 : desired.filter (fun k => decide (k ∉ out)) = []) :
    (caak_emit out desired time).2 = [] := by
  unfold caak_emit
  rw [h1, h2]
  rfl

/- ### The survivor ordering of `lookup_mapping` -/

/-- Is this a `DualRole` rule whose input equals the code (the
early-return test of `lookup_mapping`)? -/
def isDualFor (code : KeyCode) : Mapping → Bool
  | .DualRole d _ _ => decide (d = code)
  | .Remap _ _ => false

/-- Is this a `Remap` rule surviving the candidate test of
`lookup_mapping`? -/
def isRemapCandidate (st : List (KeyCode × TimeVal)) (code : KeyCode)
    (value : Int) : Mapping → Bool
  | .Remap input _ => remapMatches st code value input false
  | .DualRole _ _ _ => false

theorem lookupGo_no_dual (st : List (KeyCode × TimeVal)) (code : KeyCode)
    (value : Int) :
    ∀ (ms acc : List Mapping), (∀ mp ∈ ms, isDualFor code mp = false) →
      lookupGo st code value ms acc =
        (rustSortBy remapLenCmp
          (acc ++ ms.filter (isRemapCandidate st code value))).head? := by
  intro ms
  induction ms with
  | nil => intro acc h; simp [lookupGo]
  | cons mp rest ih =>
    intro acc h
    cases mp with
    | DualRole d hd tp =>
      have hdc : ¬ d = code := by
        have := h _ (List.mem_cons_self _ rest)
        simpa [isDualFor] using this
      simp only [lookupGo]
      rw [if_neg hdc, List.filter_cons_of_neg (by simp [isRemapCandidate])]
      exact ih acc (fun q hq => h q (List.mem_cons_of_mem _ hq))
    | Remap input output =>
      simp only [lookupGo]
      by_cases hm : remapMatches st code value input false = true
      · rw [if_pos hm,
          List.filter_cons_of_pos (by simpa [isRemapCandidate] using hm),
          ih (acc ++ [Mapping.Remap input output])
            (fun q hq => h q (List.mem_cons_of_mem _ hq))]
        rw [List.append_assoc, List.singleton_append]
      · rw [if_neg hm,
          List.filter_cons_of_neg (by simpa [isRemapCandidate] using hm)]
        exact ih acc (fun q hq => h q (List.mem_cons_of_mem _ hq))

theorem remapLe_true_iff (x y : Mapping) :
    decide (remapLenCmp y x ≠ Ordering.lt) = true ↔ remapLen y ≤ remapLen x := by
  rw [decide_eq_true_eq]
  unfold remapLenCmp
  have hsw : ((compare (remapLen y) (remapLen x)).swap = Ordering.lt) ↔
      compare (remapLen y) (remapLen x) = Ordering.gt := by
    cases compare (remapLen y) (remapLen x) <;> simp [Ordering.swap]
  rw [Ne, hsw, Nat.compare_eq_gt, not_lt]

/- ### Axis batch shape -/

theorem axis_emit_go_events (ks : List KeyCodeWrapper) (time : TimeVal)
    (value : Int) (iw : KeyCodeWrapper) (out : List KeyCode) :
    (axis_emit_go time value iw out ks).2 =
      (ks.map (fun k =>
        match k.code with
        | .EV_KEY kk =>
          [(⟨time, .EV_KEY kk, 1⟩ : InputEvent), ⟨time, .EV_KEY kk, 0⟩]
        | c =>
          [⟨time, c, i32wrap
            ((Int.tdiv value (if iw.scale = 0 then 1 else iw.scale)) *
              (if k.scale = 0 then 1 else k.scale))⟩])).flatten := by
  induction ks generalizing out with
  | nil => rfl
  | cons k rest ih =>
    rcases hk : k.code with _ | kk | _ | _ | _ | _ | _ | _ | _ | _ | _ | _ | _ <;>
      simp [axis_emit_go, hk, ih, KeyEventType.value]

/- ### The parser's split agrees with the grammar split -/

theorem lastSignIdx_lt (cs : List Char) (i : Nat)
    (h : lastSignIdx cs = some i) : i < cs.length := by
  induction cs generalizing i with
  | nil => cases h
  | cons c rest ih =>
    rw [lastSignIdx] at h
    rcases hr : lastSignIdx rest with _ | j
    · rw [hr] at h
      by_cases hs : isSignChar c = true
      · rw [if_pos hs] at h
        cases h
        simp
      · rw [if_neg hs] at h
        cases h
    · rw [hr] at h
      cases h
      have := ih j hr
      simpa using Nat.succ_lt_succ this

theorem specSplitSign_eq (cs : List Char) :
    specSplitSign cs =
      match lastSignIdx cs with
      | none => (cs, [])
      | some i => (cs.take i, cs.drop i) := by
  induction cs with
  | nil => rfl
  | cons c rest ih =>
    rcases hr : lastSignIdx rest with _ | j
    · rw [hr] at ih
      dsimp only at ih
      by_cases hs : isSignChar c = true
      · simp [specSplitSign, lastSignIdx, hr, ih, hs]
      · simp [specSplitSign, lastSignIdx, hr, ih, hs]
    · rw [hr] at ih
      dsimp only at ih
      have hj : rest.drop j ≠ [] := by
        have := lastSignIdx_lt rest j hr
        intro hnil
        rw [List.drop_eq_nil_iff] at hnil
        omega
      simp [specSplitSign, lastSignIdx, hr, ih, hj]

/- ### Concrete scenarios used by the claim theorems -/

/-- A zero timestamp. -/
def t0 : TimeVal := ⟨0, 0⟩

/-- C2's failing input: `KEY_C` and `KEY_LEFTCTRL` held, no rules, the
set difference iterated with the non-modifier first. -/
def c2state : InputMapper :=
  ⟨[(.EV_KEY KEY_C, t0), (.EV_KEY KEY_LEFTCTRL, t0)], [], [.EV_KEY], none, []⟩

/-- C3's scenario: the classic CAPSLOCK dual-role rule, CAPSLOCK held
and armed as the tap candidate, CTRL currently on the output. -/
def c3state : InputMapper :=
  ⟨[(.EV_KEY KEY_CAPSLOCK, t0)],
    [.DualRole (.EV_KEY KEY_CAPSLOCK) [.EV_KEY KEY_LEFTCTRL] [.EV_KEY KEY_ESC]],
    [.EV_KEY], some (.EV_KEY KEY_CAPSLOCK), [.EV_KEY KEY_LEFTCTRL]⟩

/-- C4's configuration: a one-key chord rule and a two-key chord rule
with the first rule's input a strict subset of the second's. -/
def c4ruleA : Mapping := .Remap [⟨.EV_KEY KEY_A, 1⟩] [⟨.EV_KEY KEY_ESC, 1⟩]

/-- The larger chord of C4's configuration. -/
def c4ruleB : Mapping :=
  .Remap [⟨.EV_KEY KEY_A, 1⟩, ⟨.EV_KEY KEY_B, 1⟩] [⟨.EV_KEY KEY_TAB, 1⟩]

/-- C5's scenario: a wheel tick remapped to a key tap plus a scaled
horizontal-wheel event. -/
def c5state : InputMapper :=
  ⟨[], [.Remap [⟨.EV_REL REL_WHEEL, 1⟩]
      [⟨.EV_KEY KEY_VOLUMEUP, 1⟩, ⟨.EV_REL REL_HWHEEL, 2⟩]],
    [.EV_REL], none, []⟩

/-- C6's failing input: only `EV_REL` is a mapped family, so a key
press reaches the verbatim passthrough of `run_mapper`. -/
def c6state : InputMapper :=
  ⟨[], [.Remap [⟨.EV_REL REL_WHEEL, 1⟩] [⟨.EV_REL REL_HWHEEL, 1⟩]],
    mappedTypesOf [.Remap [⟨.EV_REL REL_WHEEL, 1⟩] [⟨.EV_REL REL_HWHEEL, 1⟩]],
    none, []⟩

/-- C7's failing input: a key remapped to a relative-axis code, which
`output_keys` never tracks. -/
def c7state : InputMapper :=
  ⟨[(.EV_KEY KEY_A, t0)],
    [.Remap [⟨.EV_KEY KEY_A, 1⟩] [⟨.EV_REL REL_WHEEL, 1⟩]],
    [.EV_KEY], none, []⟩

/-- A key-to-key configuration on which reconciliation is idempotent
(the witness input for the amended C7). -/
def c7wstate : InputMapper :=
  ⟨[(.EV_KEY KEY_A, t0)],
    [.Remap [⟨.EV_KEY KEY_A, 1⟩] [⟨.EV_KEY KEY_ESC, 1⟩]],
    [.EV_KEY], none, []⟩

/-- C8's scenario: CAPSLOCK held and remapped to ESC (so ESC is on the
output), and a release of the physically untracked ESC arrives. -/
def c8state : InputMapper :=
  ⟨[(.EV_KEY KEY_CAPSLOCK, t0)],
    [.Remap [⟨.EV_KEY KEY_CAPSLOCK, 1⟩] [⟨.EV_KEY KEY_ESC, 1⟩]],
    [.EV_KEY], none, [.EV_KEY KEY_ESC]⟩

/-- The default modifier set hard-coded in `is_modifier`. -/
def modifierDefaults : List Nat :=
  [KEY_FN, KEY_LEFTALT, KEY_RIGHTALT, KEY_LEFTMETA, KEY_RIGHTMETA,
    KEY_LEFTCTRL, KEY_RIGHTCTRL, KEY_LEFTSHIFT, KEY_RIGHTSHIFT]

/- ### Claim C1 -/

/-- C1, counterexample: the resolver does not implement the claim's
two-phase algorithm verbatim.  With a DualRole hold injecting
`REL_WHEEL` and two Remap rules consuming it, the code keeps the
non-key code visible (it only drops non-modifier KEY codes), so the
second rule still fires and `KEY_B` appears in the result, while the
claim's algorithm (drop every removed code unless it is a modifier)
consumes `REL_WHEEL` after the first rule and omits `KEY_B`. -/
theorem c1_phaseB_visibility_counterexample :
    (EventCode.EV_KEY KEY_B) ∈ compute_keys [.EV_KEY KEY_CAPSLOCK] c1CexMappings ∧
    (EventCode.EV_KEY KEY_B) ∉
      specComputeKeysWith claimDropFromVisible [.EV_KEY KEY_CAPSLOCK] c1CexMappings := by
  decide

/-- C1, amended: for every mapping list and every held-key set,
`compute_keys` returns (as a set) exactly the result of the two-phase
algorithm in which Phase B's `visible` set drops every removed or
inserted code that is a KEY-family non-modifier — non-key codes, like
modifiers, stay visible. -/
theorem c1_resolver_amended (input_keys : List KeyCode)
    (mappings : List Mapping) (x : KeyCode) :
    x ∈ compute_keys input_keys mappings ↔
      x ∈ specComputeKeysWith dropFromVisible input_keys mappings := by
  have h := phaseA_equiv mappings input_keys input_keys (fun _ => Iff.rfl)
  exact phaseB_equiv mappings _ _ _ _ h h x

/- ### Claim C2 -/

/-- C2, failing input: with `output_keys` empty and desired keys
iterated as `[KEY_C, KEY_LEFTCTRL]`, the press batch comes out in that
order — the non-modifier `KEY_C` at index 0 precedes the modifier
`KEY_LEFTCTRL` at index 1 — because `modifiers_first` never returns
`Less`, so the stable sort leaves the batch unsorted.  This contradicts
the claimed (and doc-commented) modifiers-first press ordering. -/
theorem c2_press_batch_unsorted :
    (compute_and_apply_keys c2state t0).2 =
      [⟨t0, .EV_KEY KEY_C, 1⟩, ⟨t0, .EV_KEY KEY_LEFTCTRL, 1⟩, syn_event t0] ∧
    isModCode (.EV_KEY KEY_LEFTCTRL) = true ∧
    isModCode (.EV_KEY KEY_C) = false := by
  decide

/- ### Claim C6 -/

/-- C6, counterexample: when a key event's family is not mapped, the
`run_mapper` loop writes it through without the `write_event`
bookkeeping, so after the passthrough press of `KEY_A` (followed by the
upstream sync) `output_keys` is empty while the synthetic device holds
`KEY_A`. -/
theorem c6_passthrough_counterexample :
    (run_mapper_steps c6state [⟨t0, .EV_KEY KEY_A, 1⟩, syn_event t0]).1.output_keys ≠
      device_held c6state.output_keys
        (run_mapper_steps c6state [⟨t0, .EV_KEY KEY_A, 1⟩, syn_event t0]).2 := by
  decide

/-- C6, amended: for every event dispatched to `update_with_event`
(every event of a mapped family), `output_keys` afterwards equals the
synthetic device's held-key set obtained by replaying the written
events — every write path inside the engine goes through the
`write_event` bookkeeping; only the verbatim passthrough for unmapped
families in `run_mapper` bypasses it. -/
theorem c6_output_keys_amended (m : InputMapper) (ev : InputEvent) :
    (update_with_event m ev).1.output_keys =
      device_held m.output_keys (update_with_event m ev).2 :=
  update_with_event_tracks m ev

/- ### Claim C7 -/

/-- C7, counterexample: with `KEY_A` remapped to `REL_WHEEL`, the
desired set contains a non-key code which `write_event` never records
in `output_keys`, so a second reconciliation with unchanged
`input_state` emits the press (and its sync marker) again. -/
theorem c7_second_call_emits_again :
    (compute_and_apply_keys (compute_and_apply_keys c7state t0).1 t0).2 ≠ [] := by
  decide

/-- C7, amended: reconciliation is idempotent whenever `output_keys`
and the resolved desired set contain only KEY-family codes (as is the
case for any purely key-to-key configuration): the second call with
unchanged `input_state` and mappings emits no events at all. -/
theorem c7_idempotent_amended (m : InputMapper) (t t' : TimeVal)
    (hout : ∀ c ∈ m.output_keys, isKeyFam c = true)
    (hdes : ∀ c ∈ compute_keys (m.input_state.map Prod.fst) m.mappings,
      isKeyFam c = true) :
    (compute_and_apply_keys (compute_and_apply_keys m t).1 t').2 = [] := by
  apply caak_emit_no_events
  · rw [List.filter_eq_nil_iff]
    intro k hk
    simp only [decide_eq_true_eq, not_not]
    exact (caak_out_mem m t hout hdes k).mp hk
  · rw [List.filter_eq_nil_iff]
    intro k hk
    simp only [decide_eq_true_eq, not_not]
    exact (caak_out_mem m t hout hdes k).mpr hk

/-- Witness for the amended C7 at a concrete key-to-key configuration. -/
theorem c7_idempotent_amended_witness :
    (∀ c ∈ c7wstate.output_keys, isKeyFam c = true) ∧
    (∀ c ∈ compute_keys (c7wstate.input_state.map Prod.fst) c7wstate.mappings,
      isKeyFam c = true) ∧
    (compute_and_apply_keys (compute_and_apply_keys c7wstate t0).1 t0).2 = [] :=
  ⟨by decide, by decide,
    c7_idempotent_amended c7wstate t0 t0 (by decide) (by decide)⟩

/- ### Claim C9 -/

/-- C9, counterexample: the claim's modifier rule (configured set wins
when nonempty) disagrees with the code — `ConfigFile` has no
`modifiers` field at all and `is_modifier` is a fixed match, so for a
hypothetical configured set `[KEY_A]` the spec's rule calls `KEY_A` a
modifier while the code does not. -/
theorem c9_configured_modifiers_counterexample :
    specIsModifier [KEY_A] KEY_A = true ∧ is_modifier KEY_A = false := by
  decide

/-- C9, amended: the set of codes treated as modifiers (for batch
ordering and the Phase-B exemption) is the fixed default set — `KEY_FN`
plus left/right ALT, META, CTRL and SHIFT — independent of the
configuration, which offers no `modifiers` field. -/
theorem c9_modifiers_fixed (k : Nat) :
    is_modifier k = true ↔ k ∈ modifierDefaults := by
  simp [is_modifier, modifierDefaults]

/- ### Claim C8 -/

/-- C8, counterexample: a release of a key with no recorded press does
not leave the rest of the engine state unchanged — when the released
code is currently on the output (here ESC, produced by the CAPSLOCK
remap), the passthrough write's bookkeeping removes it from
`output_keys`. -/
theorem c8_untracked_release_changes_state :
    hmGet c8state.input_state (.EV_KEY KEY_ESC) = none ∧
    (update_with_event c8state ⟨t0, .EV_KEY KEY_ESC, 0⟩).1 ≠ c8state := by
  decide

/-- C8, amended: a key-release event whose code has no recorded press
is handled without failing: the event itself is written through
followed by a sync marker, `input_state`, `tapping`, the mappings and
the mapped families are unchanged, and `output_keys` is updated by the
ordinary write bookkeeping (the released code is removed from it). -/
theorem c8_untracked_release_passthrough (m : InputMapper) (n : Nat)
    (t : TimeVal) (huntracked : hmGet m.input_state (.EV_KEY n) = none) :
    update_with_event m ⟨t, .EV_KEY n, 0⟩ =
      ({m with output_keys := hsRemove (EventCode.EV_KEY n) m.output_keys},
        [⟨t, .EV_KEY n, 0⟩, syn_event t]) := by
  unfold update_with_event
  simp only [to_event_type, KeyEventType.from_value, write_event_keys,
    huntracked]
  norm_num

/-- Witness for the amended C8 at the concrete scenario. -/
theorem c8_untracked_release_passthrough_witness :
    hmGet c8state.input_state (.EV_KEY KEY_ESC) = none ∧
    update_with_event c8state ⟨t0, .EV_KEY KEY_ESC, 0⟩ =
      ({c8state with
          output_keys := hsRemove (EventCode.EV_KEY KEY_ESC) c8state.output_keys},
        [⟨t0, .EV_KEY KEY_ESC, 0⟩, syn_event t0]) :=
  ⟨by decide, c8_untracked_release_passthrough c8state KEY_ESC t0 (by decide)⟩

/- ### Claim C3 -/

/-- C3, confirmed: on a key-release event for a tracked key for which a
DualRole rule exists, with the previous `tapping` equal to that key and
the press-to-release distance within the 200 ms window, the engine
emits — after the reconciliation produced for the release itself — a
press of the rule's tap sequence followed by a sync marker, then a
release of the tap sequence followed by a sync marker. -/
theorem c3_tap_emission (m : InputMapper) (n : Nat) (t1 pt : TimeVal)
    (d : KeyCode) (hold tap : List KeyCode)
    (htracked : hmGet m.input_state (.EV_KEY n) = some pt)
    (hdual : lookup_dual_role_mapping m.mappings (.EV_KEY n) =
      some (.DualRole d hold tap))
    (htapping : m.tapping = some (.EV_KEY n))
    (hwin : timeval_diff t1 pt ≤ tapWindowMicros) :
    (update_with_event m ⟨t1, .EV_KEY n, 0⟩).2 =
      (compute_and_apply_keys
          {m with input_state := hmRemoveKey m.input_state (.EV_KEY n)} t1).2 ++
        (tap.map (fun k => make_event k t1 .Press) ++ [syn_event t1]) ++
        (tap.map (fun k => make_event k t1 .Release) ++ [syn_event t1]) := by
  have hfv : KeyEventType.from_value (0 : Int) = KeyEventType.Release := rfl
  unfold update_with_event
  dsimp only [to_event_type]
  rw [hfv]
  dsimp only
  rw [htracked]
  dsimp only
  rw [caak_mappings, caak_tapping]
  dsimp only
  rw [hdual, htapping]
  dsimp only
  rw [if_pos ⟨rfl, hwin⟩]
  dsimp only
  rw [emit_keys_events, emit_keys_events]

/-- Witness for C3 at the CAPSLOCK dual-role scenario, released 100 ms
after the press. -/
theorem c3_tap_emission_witness :
    hmGet c3state.input_state (.EV_KEY KEY_CAPSLOCK) = some t0 ∧
    lookup_dual_role_mapping c3state.mappings (.EV_KEY KEY_CAPSLOCK) =
      some (.DualRole (.EV_KEY KEY_CAPSLOCK) [.EV_KEY KEY_LEFTCTRL]
        [.EV_KEY KEY_ESC]) ∧
    c3state.tapping = some (.EV_KEY KEY_CAPSLOCK) ∧
    timeval_diff ⟨0, 100000⟩ t0 ≤ tapWindowMicros ∧
    (update_with_event c3state ⟨⟨0, 100000⟩, .EV_KEY KEY_CAPSLOCK, 0⟩).2 =
      (compute_and_apply_keys
          {c3state with
            input_state := hmRemoveKey c3state.input_state (.EV_KEY KEY_CAPSLOCK)}
          ⟨0, 100000⟩).2 ++
        ([.EV_KEY KEY_ESC].map (fun k => make_event k ⟨0, 100000⟩ .Press) ++
          [syn_event ⟨0, 100000⟩]) ++
        ([.EV_KEY KEY_ESC].map (fun k => make_event k ⟨0, 100000⟩ .Release) ++
          [syn_event ⟨0, 100000⟩]) :=
  ⟨by decide, by decide, by decide, by decide,
    c3_tap_emission c3state KEY_CAPSLOCK ⟨0, 100000⟩ t0 (.EV_KEY KEY_CAPSLOCK)
      [.EV_KEY KEY_LEFTCTRL] [.EV_KEY KEY_ESC] (by decide) (by decide)
      (by decide) (by decide)⟩

/- ### Claim C4 -/

/-- C4, confirmed: when no DualRole rule claims the event code and the
only surviving Remap rules are two rules whose input chords are `A` and
`B` with `A` a strict sub-chord of `B`, `lookup_mapping` returns the
rule with input `B`: survivors are stable-sorted by chord size
descending, and the head of that order is the larger chord. -/
theorem c4_lookup_specificity (st : List (KeyCode × TimeVal))
    (ms : List Mapping) (code : KeyCode) (value : Int)
    (inA outA inB outB : List KeyCodeWrapper)
    (hnd : ∀ mp ∈ ms, isDualFor code mp = false)
    (hAmem : Mapping.Remap inA outA ∈ ms)
    (hAmatch : remapMatches st code value inA false = true)
    (hBmem : Mapping.Remap inB outB ∈ ms)
    (hBmatch : remapMatches st code value inB false = true)
    (hsub : ∀ w ∈ inA, w ∈ inB)
    (hlen : inA.length < inB.length)
    (honly : ∀ mp ∈ ms, isRemapCandidate st code value mp = true →
      mp = Mapping.Remap inA outA ∨ mp = Mapping.Remap inB outB) :
    lookup_mapping st ms code value = some (Mapping.Remap inB outB) := by
  have htot : ∀ a b : Mapping,
      decide (remapLenCmp b a ≠ Ordering.lt) = true ∨
      decide (remapLenCmp a b ≠ Ordering.lt) = true := by
    intro a b
    rcases Nat.le_total (remapLen b) (remapLen a) with h | h
    · exact Or.inl ((remapLe_true_iff a b).mpr h)
    · exact Or.inr ((remapLe_true_iff b a).mpr h)
  have htrans : ∀ a b c : Mapping,
      decide (remapLenCmp b a ≠ Ordering.lt) = true →
      decide (remapLenCmp c b ≠ Ordering.lt) = true →
      decide (remapLenCmp c a ≠ Ordering.lt) = true := by
    intro a b c h1 h2
    rw [remapLe_true_iff] at h1 h2 ⊢
    exact le_trans h2 h1
  have hBfil : Mapping.Remap inB outB ∈
      ms.filter (isRemapCandidate st code value) := by
    rw [List.mem_filter]
    exact ⟨hBmem, by simpa [isRemapCandidate] using hBmatch⟩
  rw [lookup_mapping, lookupGo_no_dual st code value ms [] hnd,
    List.nil_append]
  rcases hs : rustSortBy remapLenCmp
      (ms.filter (isRemapCandidate st code value)) with _ | ⟨x, tl⟩
  · exfalso
    have hmem : Mapping.Remap inB outB ∈ rustSortBy remapLenCmp
        (ms.filter (isRemapCandidate st code value)) := by
      rw [mem_rustSortBy]
      exact hBfil
    rw [hs] at hmem
    cases hmem
  · have hs' : sortByLe (fun x y => decide (remapLenCmp y x ≠ Ordering.lt))
        (ms.filter (isRemapCandidate st code value)) = x :: tl := hs
    have hx_mem : x ∈ ms.filter (isRemapCandidate st code value) :=
      rustSortBy_mem_self remapLenCmp _ x tl hs
    have hxB := sortByLe_head_le _ htot htrans _ x tl hs'
      (Mapping.Remap inB outB) hBfil
    rw [remapLe_true_iff] at hxB
    obtain ⟨hxms, hxcand⟩ := List.mem_filter.mp hx_mem
    rcases honly x hxms hxcand with rfl | rfl
    · exfalso
      simp only [remapLen] at hxB
      omega
    · rfl

/-- Witness for C4: pressing `KEY_A` with both `KEY_A` and `KEY_B` held
selects the two-key chord rule over the one-key rule. -/
theorem c4_lookup_specificity_witness :
    (∀ mp ∈ [c4ruleA, c4ruleB], isDualFor (.EV_KEY KEY_A) mp = false) ∧
    c4ruleA ∈ [c4ruleA, c4ruleB] ∧
    remapMatches [(.EV_KEY KEY_A, t0), (.EV_KEY KEY_B, t0)] (.EV_KEY KEY_A) 1
      [⟨.EV_KEY KEY_A, 1⟩] false = true ∧
    c4ruleB ∈ [c4ruleA, c4ruleB] ∧
    remapMatches [(.EV_KEY KEY_A, t0), (.EV_KEY KEY_B, t0)] (.EV_KEY KEY_A) 1
      [⟨.EV_KEY KEY_A, 1⟩, ⟨.EV_KEY KEY_B, 1⟩] false = true ∧
    lookup_mapping [(.EV_KEY KEY_A, t0), (.EV_KEY KEY_B, t0)]
      [c4ruleA, c4ruleB] (.EV_KEY KEY_A) 1 = some c4ruleB :=
  ⟨by decide, by decide, by decide, by decide, by decide,
    c4_lookup_specificity [(.EV_KEY KEY_A, t0), (.EV_KEY KEY_B, t0)]
      [c4ruleA, c4ruleB] (.EV_KEY KEY_A) 1
      [⟨.EV_KEY KEY_A, 1⟩] [⟨.EV_KEY KEY_ESC, 1⟩]
      [⟨.EV_KEY KEY_A, 1⟩, ⟨.EV_KEY KEY_B, 1⟩] [⟨.EV_KEY KEY_TAB, 1⟩]
      (by decide) (by decide) (by decide) (by decide) (by decide)
      (by decide) (by decide) (by decide)⟩

/- ### Claim C5 -/

/-- C5's overflow input: a wheel tick remapped to a horizontal-wheel
event with output scale 4, driven with value `2^30` so the `i32`
product `(2^30 / 1) * 4 = 2^32` overflows and wraps to 0. -/
def c5OverflowState : InputMapper :=
  ⟨[], [.Remap [⟨.EV_REL REL_WHEEL, 1⟩] [⟨.EV_REL REL_HWHEEL, 4⟩]],
    [.EV_REL], none, []⟩

/-- C5, counterexample: the emitted axis value is not
`(event.value / in_scale) * out_scale` as an integer — with input scale
1, output scale 4 and event value `2^30`, the `i32` product wraps and
the single written event carries 0, while the claimed arithmetic gives
`2^32` (a value no `i32` event can carry; a debug build would abort on
this multiplication instead). -/
theorem c5_overflow_counterexample :
    (update_with_event c5OverflowState ⟨t0, .EV_REL REL_WHEEL, 1073741824⟩).2 =
      [⟨t0, .EV_REL REL_HWHEEL, 0⟩, syn_event t0] ∧
    (Int.tdiv 1073741824 1) * 4 = 4294967296 ∧ (4294967296 : Int) ≠ 0 := by
  decide

/-- C5, amended: a non-key event handled by the axis path with a
matching Remap rule (and the direction-matching input wrapper `iw`)
writes, for each output element in order, a press immediately followed
by a release at the event's timestamp when the output code is a KEY,
and otherwise exactly one event carrying
`(value / in_scale) * out_scale` in 32-bit integer arithmetic —
truncating division, zero scales treated as 1, the product wrapping to
two's-complement on overflow — the whole batch closed by exactly one
sync marker; the one aborting case, value `-2^31` with effective input
scale `-1` (division overflow), is excluded. -/
theorem c5_axis_batch (m : InputMapper) (ev : InputEvent)
    (inp outp : List KeyCodeWrapper) (iw : KeyCodeWrapper)
    (hnk : to_event_type ev.event_code ≠ EventType.EV_KEY)
    (hlk : lookup_mapping m.input_state m.mappings ev.event_code ev.value =
      some (.Remap inp outp))
    (hfind : inp.find? (fun w => decide (w.code = ev.event_code) &&
      decide (w.scale = 0 ∨ ((w.scale < 0) ↔ (ev.value < 0)))) = some iw)
    (hdiv : ¬(ev.value = -(2 ^ 31) ∧
      (if iw.scale = 0 then 1 else iw.scale) = -1)) :
    (update_with_event m ev).2 =
      (outp.map (fun k =>
        match k.code with
        | .EV_KEY kk => [(⟨ev.time, .EV_KEY kk, 1⟩ : InputEvent),
            ⟨ev.time, .EV_KEY kk, 0⟩]
        | c => [⟨ev.time, c, i32wrap
            ((Int.tdiv ev.value (if iw.scale = 0 then 1 else iw.scale)) *
              (if k.scale = 0 then 1 else k.scale))⟩])).flatten ++
        [syn_event ev.time] := by
  unfold update_with_event
  split
  · exact absurd (by assumption) hnk
  · rw [hlk]
    dsimp only
    rw [hfind]
    dsimp only
    rw [axis_emit_go_events]

/-- Witness for the amended C5: a `REL_WHEEL` tick of value 3 through
the volume-up-plus-scaled-horizontal-wheel rule (no overflow, so the
wrap is the identity). -/
theorem c5_axis_batch_witness :
    to_event_type (EventCode.EV_REL REL_WHEEL) ≠ EventType.EV_KEY ∧
    lookup_mapping c5state.input_state c5state.mappings
      (.EV_REL REL_WHEEL) 3 =
      some (.Remap [⟨.EV_REL REL_WHEEL, 1⟩]
        [⟨.EV_KEY KEY_VOLUMEUP, 1⟩, ⟨.EV_REL REL_HWHEEL, 2⟩]) ∧
    ¬((3 : Int) = -(2 ^ 31) ∧ ((1 : Int) = -1)) ∧
    (update_with_event c5state ⟨t0, .EV_REL REL_WHEEL, 3⟩).2 =
      [⟨t0, .EV_KEY KEY_VOLUMEUP, 1⟩, ⟨t0, .EV_KEY KEY_VOLUMEUP, 0⟩,
        ⟨t0, .EV_REL REL_HWHEEL, 6⟩, syn_event t0] := by
  refine ⟨by decide, by decide, by decide, ?_⟩
  rw [c5_axis_batch c5state ⟨t0, .EV_REL REL_WHEEL, 3⟩
    [⟨.EV_REL REL_WHEEL, 1⟩]
    [⟨.EV_KEY KEY_VOLUMEUP, 1⟩, ⟨.EV_REL REL_HWHEEL, 2⟩]
    ⟨.EV_REL REL_WHEEL, 1⟩ (by decide) (by decide) (by decide) (by decide)]
  decide

/- ### Claim C10 -/

/-- C10, counterexample: parsing is not total — a name with no
underscore (the `split_once("_").unwrap()` of the source) terminates
abnormally instead of failing with `InvalidKey`, as does a sign
followed by non-numeric characters (`parse::<i32>().unwrap()`). -/
theorem c10_parser_crash_counterexample :
    tryFromString sampleEtTbl sampleEcTbl "FOO" = .crash ∧
    tryFromString sampleEtTbl sampleEcTbl "KEY_A+x" = .crash := by
  decide

/-- C10, amended: `KeyCodeWrapper::try_from` computes exactly the
`NAME[±[N]]` grammar — bare names get scale 0, raised to 1 for the KEY
family (with `BTN` normalised to `KEY`), a lone trailing sign sets
direction with magnitude 1, digits after the sign set the signed
magnitude, and unknown names yield `InvalidKey` with the offending
token — except that it terminates abnormally (instead of erroring) when
the name part has no underscore or when the characters after the sign
do not parse as an `i32`.  Stated as: the source parser equals the
grammar-side parser for every lookup table and every input string. -/
theorem c10_parser_amended (etTbl : String → Option EventType)
    (ecTbl : EventType → String → Option EventCode) (s : String) :
    tryFromString etTbl ecTbl s = specTryFromString etTbl ecTbl s := by
  unfold tryFromString specTryFromString
  dsimp only
  rw [specSplitSign_eq]
  rcases h : lastSignIdx s.data with _ | i
  · rfl
  · have hlt := lastSignIdx_lt s.data i h
    dsimp only
    rcases hd : s.data.drop i with _ | ⟨c, rest⟩
    · exfalso
      rw [List.drop_eq_nil_iff] at hd
      omega
    · rcases rest with _ | ⟨c2, rest2⟩
      · have hcond : ¬((c :: ([] : List Char)).length > 1) := by simp
        rw [if_neg hcond]
        by_cases hc : c = '-'
        · subst hc
          rw [if_pos rfl]
          rfl
        · rw [if_neg (by simpa using hc)]
          dsimp only
          rw [if_neg hc]
      · have hcond2 : (c :: c2 :: rest2).length > 1 := by simp
        rw [if_pos hcond2]

end Evremap
